import Mathlib

/-!
Verification of giddy's dependency-graph engine and branch reconciliation
workflow.  The definitions below are shallow embeddings of the Rust source:
`src/graph.rs` (dependency graph with cycle rejection via petgraph's
`Acyclic` wrapper), `src/git.rs` (per-branch persisted state and the
`Branch::update` reconciliation procedure over the git backend) and
`src/main.rs` (the recursive post-order update traversal in `handle_update`).
The git backend is abstracted as an oracle supplying the answers of the
read-only git queries and the exit status of rebase invocations.
-/

namespace Giddy

/-- A directed graph over branch names; an edge `(branch, dep)` encodes
"branch depends on dep".  Models `BranchGraph = DiGraph<String, ()>`
together with the node set kept in `GraphRepo::branch_map`. -/
structure Graph where
  nodes : List String
  edges : List (String × String)
deriving Repr, DecidableEq

/-- Edge membership. -/
def Edge (g : Graph) (a b : String) : Prop := (a, b) ∈ g.edges

/-- Well-formedness: every edge endpoint is a known node.  `GraphRepo::new`
only inserts edges between known branches, and `try_add_dep` resolves both
names through `branch_id` first. -/
def GraphWf (g : Graph) : Prop := ∀ e ∈ g.edges, e.1 ∈ g.nodes ∧ e.2 ∈ g.nodes

/-- Walk predicate `chainOk g a l b`: the vertex sequence `a :: l` is a directed walk in `g`
whose last vertex is `b`. -/
def chainOk (g : Graph) : String → List String → String → Prop
  | a, [], b => a = b
  | a, c :: l, b => Edge g a c ∧ chainOk g c l b

/-- Reachability: some walk leads from `a` to `b`. -/
def Reaches (g : Graph) (a b : String) : Prop := ∃ l, chainOk g a l b

/-- A directed cycle exists: some edge whose target reaches back to its
source (this covers self-loops, with the empty walk). -/
def HasCycle (g : Graph) : Prop := ∃ p q, Edge g p q ∧ Reaches g q p

/-- Direct successors of `a`: the dependency neighbors in edge direction. -/
def succs (g : Graph) (a : String) : List String :=
  g.edges.filterMap (fun e => if e.1 = a then some e.2 else none)

/-- Bounded search: is there a walk of length at most `n` from `a` to `b`? -/
def reachesIn (g : Graph) : Nat → String → String → Bool
  | 0, a, b => a == b
  | n + 1, a, b => a == b || (succs g a).any (fun c => reachesIn g n c b)

/-- The reachability test backing the cycle checks; walks of length
`g.nodes.length` suffice (walk shortening). -/
def reachable (g : Graph) (a b : String) : Bool :=
  reachesIn g g.nodes.length a b

/-- Error message of `GraphRepo::branch_id` for an unknown branch. -/
def notFoundMsg (b : String) : String := "branch `" ++ b ++ "` not found"

/-- Error message of `GraphRepo::try_add_dep` when the edge would cycle. -/
def cycleMsg (branch dep : String) : String :=
  "adding `" ++ dep ++ "` as dependency of `" ++ branch ++ "` would create a cycle"

/-- The graph `g` with the edge `branch → dep` inserted. -/
def addDepEdge (g : Graph) (branch dep : String) : Graph :=
  { g with edges := (branch, dep) :: g.edges }

/-- Shallow embedding of `GraphRepo::try_add_dep`: resolve both names via
`branch_id`, then add the edge `branch → dep` only if it keeps the graph
acyclic.  petgraph's `Acyclic::try_add_edge` rejects the edge exactly when
`dep` already reaches `branch` (including the self-loop case). -/
def try_add_dep (g : Graph) (branch dep : String) : Except String Graph :=
  if branch ∉ g.nodes then .error (notFoundMsg branch)
  else if dep ∉ g.nodes then .error (notFoundMsg dep)
  else if reachable g dep branch then .error (cycleMsg branch dep)
  else .ok (addDepEdge g branch dep)

/-- A sequence of `try_add_dep` calls; a failing call leaves the graph
unchanged (the error is returned before any mutation). -/
def applyDeps (g : Graph) (calls : List (String × String)) : Graph :=
  calls.foldl
    (fun h c =>
      match try_add_dep h c.1 c.2 with
      | .ok h2 => h2
      | .error _ => h)
    g

/-- The graph `GraphRepo::new` assembles from the persisted records: one node
per branch, one edge per `(branch, dep)` pair whose `dep` is itself a known
branch; a dep naming an unknown branch is skipped with a warning. -/
def buildGraph (branches : List (String × List String)) : Graph :=
  let nodes := branches.map Prod.fst
  { nodes := nodes
    edges := branches.foldr
      (fun p acc => (p.2.filter (fun d => d ∈ nodes)).map (fun d => (p.1, d)) ++ acc)
      [] }

/-- Executable cycle test: some edge closes a cycle. -/
def hasCycleB (g : Graph) : Bool := g.edges.any (fun e => reachable g e.2 e.1)

/-- Embedding of `Branch::deps` (the effective dependency list) as a function of a
branch's name and its persisted deps: an empty persisted set defaults to
`["main"]` unless the branch is the default branch itself (`"main"` is the
constant `Repo::default_branch_name` returns). -/
def effDeps (name : String) (deps : List String) : List String :=
  if deps.isEmpty then if name = "main" then [] else ["main"]
  else deps

/-- Shallow embedding of `GraphRepo::new`: build the graph from each
branch's `Branch::deps()` — the *effective* dependency list, including the
implicit default-branch fallback — then run
`Acyclic::try_from_graph(graph).unwrap()`; `none` models the `unwrap` panic
on a cyclic graph.  The input pairs carry each branch's persisted deps. -/
def graph_repo_new (branches : List (String × List String)) : Option Graph :=
  let g := buildGraph (branches.map (fun p => (p.1, effDeps p.1 p.2)))
  if hasCycleB g then none else some g

theorem mem_succs {g : Graph} {a c : String} : c ∈ succs g a ↔ Edge g a c := by
  simp only [succs, List.mem_filterMap, Edge]
  constructor
  · rintro ⟨⟨x, y⟩, he, hif⟩
    by_cases h1 : x = a
    · subst h1
      simp at hif
      subst hif
      exact he
    · simp [h1] at hif
  · intro h
    exact ⟨(a, c), h, by simp⟩

theorem chainOk_append_split {g : Graph} {x b : String} :
    ∀ (l1 l2 : List String) (a : String),
      chainOk g a (l1 ++ x :: l2) b ↔ chainOk g a (l1 ++ [x]) x ∧ chainOk g x l2 b := by
  intro l1
  induction l1 with
  | nil => intro l2 a; simp [chainOk, and_assoc]
  | cons c t ih =>
    intro l2 a
    show Edge g a c ∧ chainOk g c (t ++ x :: l2) b ↔
      (Edge g a c ∧ chainOk g c (t ++ [x]) x) ∧ chainOk g x l2 b
    rw [ih, and_assoc]

theorem exists_dup_split {L : List String} (h : ¬ L.Nodup) :
    ∃ x p q r, L = p ++ x :: (q ++ x :: r) := by
  induction L with
  | nil => simp at h
  | cons y t ih =>
    by_cases hy : y ∈ t
    · obtain ⟨q, r, rfl⟩ := List.append_of_mem hy
      exact ⟨y, [], q, r, rfl⟩
    · have ht : ¬ t.Nodup := fun hn => h (List.nodup_cons.mpr ⟨hy, hn⟩)
      obtain ⟨x, p, q, r, rfl⟩ := ih ht
      exact ⟨x, y :: p, q, r, rfl⟩

theorem chainOk_shorten {g : Graph} {a b : String} :
    ∀ (n : Nat) (l : List String), l.length ≤ n → chainOk g a l b →
      ∃ l2, (a :: l2).Nodup ∧ chainOk g a l2 b := by
  intro n
  induction n with
  | zero =>
    intro l hl hc
    have : l = [] := List.length_eq_zero.mp (Nat.le_zero.mp hl)
    subst this
    exact ⟨[], List.nodup_singleton a, hc⟩
  | succ m ih =>
    intro l hl hc
    by_cases hnd : (a :: l).Nodup
    · exact ⟨l, hnd, hc⟩
    · obtain ⟨x, p, q, r, hsplit⟩ := exists_dup_split hnd
      cases p with
      | nil =>
        -- a = x and l = q ++ x :: r; cut the loop through a
        injection hsplit with h1 h2
        subst h1
        subst h2
        have h2 := (chainOk_append_split q r a).mp hc
        refine ih r ?_ h2.2
        simp only [List.length_append, List.length_cons] at hl
        omega
      | cons c p2 =>
        -- a = c and l = p2 ++ x :: (q ++ x :: r); cut the inner loop at x
        injection hsplit with h1 h2
        subst h1
        subst h2
        have h2 := (chainOk_append_split p2 (q ++ x :: r) a).mp hc
        have h3 := (chainOk_append_split q r x).mp h2.2
        have h4 : chainOk g a (p2 ++ x :: r) b :=
          (chainOk_append_split p2 r a).mpr ⟨h2.1, h3.2⟩
        refine ih (p2 ++ x :: r) ?_ h4
        simp only [List.append_eq, List.length_append, List.length_cons] at hl ⊢
        omega

theorem chainOk_mem_nodes {g : Graph} (hwf : GraphWf g) :
    ∀ (l : List String) (a b : String), chainOk g a l b → ∀ v ∈ l, v ∈ g.nodes := by
  intro l
  induction l with
  | nil => intro a b _ v hv; simp at hv
  | cons c t ih =>
    intro a b hc v hv
    rcases List.mem_cons.mp hv with rfl | hv2
    · exact (hwf (a, v) hc.1).2
    · exact ih c b hc.2 v hv2

theorem reachesIn_of_chainOk {g : Graph} :
    ∀ (l : List String) (a b : String) (n : Nat), chainOk g a l b → l.length ≤ n →
      reachesIn g n a b = true := by
  intro l
  induction l with
  | nil =>
    intro a b n hc _
    have : a = b := hc
    subst this
    cases n <;> simp [reachesIn]
  | cons c t ih =>
    intro a b n hc hn
    cases n with
    | zero => simp at hn
    | succ m =>
      simp only [reachesIn, Bool.or_eq_true, List.any_eq_true]
      exact Or.inr ⟨c, mem_succs.mpr hc.1, ih c b m hc.2 (by simpa using hn)⟩

theorem chainOk_of_reachesIn {g : Graph} :
    ∀ (n : Nat) (a b : String), reachesIn g n a b = true → Reaches g a b := by
  intro n
  induction n with
  | zero =>
    intro a b h
    simp only [reachesIn, beq_iff_eq] at h
    exact ⟨[], h⟩
  | succ m ih =>
    intro a b h
    simp only [reachesIn, Bool.or_eq_true, beq_iff_eq, List.any_eq_true] at h
    rcases h with h | ⟨c, hc, hr⟩
    · exact ⟨[], h⟩
    · obtain ⟨l, hl⟩ := ih c b hr
      exact ⟨c :: l, mem_succs.mp hc, hl⟩

theorem reachable_iff {g : Graph} (hwf : GraphWf g) {a b : String} (ha : a ∈ g.nodes) :
    reachable g a b = true ↔ Reaches g a b := by
  constructor
  · exact chainOk_of_reachesIn g.nodes.length a b
  · rintro ⟨l, hl⟩
    obtain ⟨l2, hnd, hc⟩ := chainOk_shorten l.length l (Nat.le_refl _) hl
    have hsub : ∀ x ∈ a :: l2, x ∈ g.nodes := by
      intro x hx
      rcases List.mem_cons.mp hx with rfl | hx2
      · exact ha
      · exact chainOk_mem_nodes hwf l2 a b hc x hx2
    have hlen : (a :: l2).length ≤ g.nodes.length :=
      (List.subperm_of_subset hnd hsub).length_le
    simp only [List.length_cons] at hlen
    exact reachesIn_of_chainOk l2 a b g.nodes.length hc (by omega)

theorem chainOk_concat {g : Graph} :
    ∀ (l1 : List String) (a b : String), chainOk g a l1 b →
      ∀ (l2 : List String) (c : String), chainOk g b l2 c →
        chainOk g a (l1 ++ l2) c := by
  intro l1
  induction l1 with
  | nil =>
    intro a b h l2 c h2
    have : a = b := h
    subst this
    exact h2
  | cons x t ih =>
    intro a b h l2 c h2
    exact ⟨h.1, ih x b h.2 l2 c h2⟩

theorem reaches_trans {g : Graph} {a b c : String} :
    Reaches g a b → Reaches g b c → Reaches g a c := by
  rintro ⟨l1, h1⟩ ⟨l2, h2⟩
  exact ⟨l1 ++ l2, chainOk_concat l1 a b h1 l2 c h2⟩

theorem reaches_step {g : Graph} {a b c : String} (h1 : Reaches g a b) (h2 : Edge g b c) :
    Reaches g a c :=
  reaches_trans h1 ⟨[c], h2, rfl⟩

theorem reaches_addEdge {g : Graph} {b d : String} :
    ∀ (l : List String) (a c : String), chainOk (addDepEdge g b d) a l c →
      Reaches g a c ∨ (Reaches g a b ∧ Reaches g d c) := by
  intro l
  induction l with
  | nil => intro a c h; exact Or.inl ⟨[], h⟩
  | cons x t ih =>
    intro a c h
    obtain ⟨he, hc⟩ := h
    have hcase : Edge g a x ∨ (a = b ∧ x = d) := by
      simp only [addDepEdge, Edge, List.mem_cons, Prod.mk.injEq] at he
      rcases he with ⟨h1, h2⟩ | h2
      · exact Or.inr ⟨h1, h2⟩
      · exact Or.inl h2
    have hd := ih x c hc
    rcases hcase with hax | ⟨rfl, rfl⟩
    · rcases hd with ⟨l1, h1⟩ | ⟨⟨l1, h1⟩, h2⟩
      · exact Or.inl ⟨x :: l1, hax, h1⟩
      · exact Or.inr ⟨⟨x :: l1, hax, h1⟩, h2⟩
    · refine Or.inr ⟨⟨[], rfl⟩, ?_⟩
      rcases hd with h1 | ⟨_, h2⟩
      · exact h1
      · exact h2

theorem no_cycle_of_rank {g : Graph} (rank : String → Nat)
    (h : ∀ p q, Edge g p q → rank q < rank p) : ¬ HasCycle g := by
  rintro ⟨p, q, he, l, hc⟩
  have key : ∀ (l2 : List String) (a c : String), chainOk g a l2 c → rank c ≤ rank a := by
    intro l2
    induction l2 with
    | nil =>
      intro a c hac
      have : a = c := hac
      subst this
      exact Nat.le_refl _
    | cons x t ih =>
      intro a c hac
      exact Nat.le_trans (ih x c hac.2) (Nat.le_of_lt (h a x hac.1))
  have h1 := key l q p hc
  have h2 := h p q he
  omega

theorem cycle_new_edge {g : Graph} {b d : String} (hacyc : ¬ HasCycle g)
    (h : HasCycle (addDepEdge g b d)) : Reaches g d b := by
  obtain ⟨p, q, he, l, hc⟩ := h
  have hdec := reaches_addEdge l q p hc
  have hcase : Edge g p q ∨ (p = b ∧ q = d) := by
    simp only [addDepEdge, Edge, List.mem_cons, Prod.mk.injEq] at he
    rcases he with ⟨h1, h2⟩ | h2
    · exact Or.inr ⟨h1, h2⟩
    · exact Or.inl h2
  rcases hcase with hpq | ⟨rfl, rfl⟩
  · rcases hdec with hqp | ⟨hqb, hdp⟩
    · exact absurd ⟨p, q, hpq, hqp⟩ hacyc
    · exact reaches_trans (reaches_step hdp hpq) hqb
  · rcases hdec with hdb | ⟨hdb, _⟩
    · exact hdb
    · exact hdb

theorem try_add_dep_ok_inv {g : Graph} {b d : String} {g2 : Graph}
    (hwf : GraphWf g) (hacyc : ¬ HasCycle g)
    (h : try_add_dep g b d = .ok g2) : GraphWf g2 ∧ ¬ HasCycle g2 := by
  unfold try_add_dep at h
  by_cases hb : b ∉ g.nodes
  · simp [hb] at h
  by_cases hd : d ∉ g.nodes
  · simp [hb, hd] at h
  by_cases hr : reachable g d b = true
  · simp [hb, hd, hr] at h
  simp only [hb, hd, hr, if_false, if_neg, Bool.false_eq_true, not_false_eq_true,
    if_true, Except.ok.injEq] at h
  subst h
  have hdn : d ∈ g.nodes := not_not.mp hd
  constructor
  · intro e hein
    simp only [addDepEdge, List.mem_cons] at hein
    rcases hein with rfl | hein
    · exact ⟨not_not.mp hb, hdn⟩
    · exact hwf e hein
  · intro hcyc
    have hdb : Reaches g d b := cycle_new_edge hacyc hcyc
    rw [← reachable_iff hwf hdn] at hdb
    exact hr hdb

theorem try_add_dep_rejects {g : Graph} {b d : String}
    (hwf : GraphWf g) (hacyc : ¬ HasCycle g)
    (hb : b ∈ g.nodes) (hd : d ∈ g.nodes)
    (hcyc : HasCycle (addDepEdge g b d)) :
    try_add_dep g b d = .error (cycleMsg b d) := by
  have hdb : Reaches g d b := cycle_new_edge hacyc hcyc
  have hr : reachable g d b = true := (reachable_iff hwf hd).mpr hdb
  simp [try_add_dep, hb, hd, hr]

theorem applyDeps_inv {g : Graph} (hwf : GraphWf g) (hacyc : ¬ HasCycle g) :
    ∀ calls, GraphWf (applyDeps g calls) ∧ ¬ HasCycle (applyDeps g calls) := by
  intro calls
  induction calls generalizing g with
  | nil => exact ⟨hwf, hacyc⟩
  | cons c cs ih =>
    have hstep : applyDeps g (c :: cs) =
        applyDeps (match try_add_dep g c.1 c.2 with
          | .ok h2 => h2
          | .error _ => g) cs := rfl
    rw [hstep]
    cases hc : try_add_dep g c.1 c.2 with
    | ok g2 =>
      obtain ⟨hwf2, hacyc2⟩ := try_add_dep_ok_inv hwf hacyc hc
      simpa [hc] using ih hwf2 hacyc2
    | error msg =>
      simpa [hc] using ih hwf hacyc

theorem mem_foldr_edges :
    ∀ (bs : List (String × List String)) (N : List String) (e : String × String),
      e ∈ bs.foldr
        (fun p acc => (p.2.filter (fun d => d ∈ N)).map (fun d => (p.1, d)) ++ acc) [] →
      (∃ p ∈ bs, e.1 = p.1) ∧ e.2 ∈ N := by
  intro bs
  induction bs with
  | nil => intro N e he; simp at he
  | cons p ps ih =>
    intro N e he
    simp only [List.foldr_cons, List.mem_append, List.mem_map, List.mem_filter,
      decide_eq_true_eq] at he
    rcases he with ⟨dd, ⟨_, hdd2⟩, rfl⟩ | he2
    · exact ⟨⟨p, List.mem_cons_self p ps, rfl⟩, hdd2⟩
    · obtain ⟨⟨p2, hp2, he1⟩, he2⟩ := ih N e he2
      exact ⟨⟨p2, List.mem_cons_of_mem p hp2, he1⟩, he2⟩

theorem buildGraph_wf (branches : List (String × List String)) :
    GraphWf (buildGraph branches) := by
  intro e he
  have h := mem_foldr_edges branches (branches.map Prod.fst) e he
  obtain ⟨⟨p, hp, he1⟩, he2⟩ := h
  refine ⟨?_, he2⟩
  rw [he1]
  exact List.mem_map.mpr ⟨p, hp, rfl⟩

theorem hasCycleB_iff {g : Graph} (hwf : GraphWf g) :
    hasCycleB g = true ↔ HasCycle g := by
  constructor
  · intro h
    simp only [hasCycleB, List.any_eq_true] at h
    obtain ⟨e, he, hr⟩ := h
    exact ⟨e.1, e.2, he, (reachable_iff hwf (hwf e he).2).mp hr⟩
  · rintro ⟨p, q, he, hr⟩
    simp only [hasCycleB, List.any_eq_true]
    exact ⟨(p, q), he, (reachable_iff hwf (hwf (p, q) he).2).mpr hr⟩

/-- Traversal state of petgraph's `DfsPostOrder`: the discovered set and the
finish (emission) order. -/
structure DfsState where
  discovered : List String
  order : List String
deriving Repr, DecidableEq

/-- Recursive model of petgraph's `DfsPostOrder` as used by `handle_update`:
visiting `v` marks it discovered, visits all its successors, then emits `v`;
an already-discovered node is skipped.  `fuel` bounds recursion depth (the
Rust iterator needs no fuel; any fuel exceeding the longest dependency chain
gives the same traversal). -/
def dfsVisit (succ : String → List String) : Nat → String → DfsState → DfsState
  | 0, _, st => st
  | fuel + 1, v, st =>
    if v ∈ st.discovered then st
    else
      let st2 := (succ v).foldl (fun s u => dfsVisit succ fuel u s)
        ⟨v :: st.discovered, st.order⟩
      ⟨st2.discovered, st2.order ++ [v]⟩

/-- The order in which `handle_update` with `--recursive` reconciles branches:
the `DfsPostOrder` emission order starting from the current branch, where
`succ` gives each branch's direct dependencies in the branch graph. -/
def updateRecursiveOrder (succ : String → List String) (fuel : Nat) (root : String) :
    List String :=
  (dfsVisit succ fuel root ⟨[], []⟩).order

/-- Relation between traversal states across a completed `dfsVisit` call:
both components grow, newly emitted nodes were undiscovered before the call,
and newly discovered nodes get emitted by the call. -/
def DfsLe (s t : DfsState) : Prop :=
  (∀ x ∈ s.discovered, x ∈ t.discovered) ∧
  (∀ x ∈ s.order, x ∈ t.order) ∧
  (∀ x ∈ t.order, x ∈ s.order ∨ x ∉ s.discovered) ∧
  (∀ x ∈ t.discovered, x ∈ t.order ∨ x ∈ s.discovered)

theorem DfsLe.rfl (s : DfsState) : DfsLe s s :=
  ⟨fun _ h => h, fun _ h => h, fun _ h => Or.inl h, fun _ h => Or.inr h⟩

theorem DfsLe.trans {a b c : DfsState} (h1 : DfsLe a b) (h2 : DfsLe b c) : DfsLe a c := by
  obtain ⟨d1, o1, n1, e1⟩ := h1
  obtain ⟨d2, o2, n2, e2⟩ := h2
  refine ⟨fun x hx => d2 x (d1 x hx), fun x hx => o2 x (o1 x hx), ?_, ?_⟩
  · intro x hx
    rcases n2 x hx with hx2 | hx2
    · exact n1 x hx2
    · exact Or.inr (fun hin => hx2 (d1 x hin))
  · intro x hx
    rcases e2 x hx with hx2 | hx2
    · exact Or.inl hx2
    · rcases e1 x hx2 with hx3 | hx3
      · exact Or.inl (o2 x hx3)
      · exact Or.inr hx3

theorem foldl_dfsLe {step : DfsState → String → DfsState}
    (hstep : ∀ s u, DfsLe s (step s u)) :
    ∀ (l : List String) (s : DfsState), DfsLe s (l.foldl step s) := by
  intro l
  induction l with
  | nil => intro s; exact DfsLe.rfl s
  | cons u t ih => intro s; exact (hstep s u).trans (ih (step s u))

theorem foldl_pres {step : DfsState → String → DfsState} {P : DfsState → Prop}
    (hstep : ∀ s u, P s → P (step s u)) :
    ∀ (l : List String) (s : DfsState), P s → P (l.foldl step s) := by
  intro l
  induction l with
  | nil => intro s hs; exact hs
  | cons u t ih => intro s hs; exact ih (step s u) (hstep s u hs)

theorem dfsVisit_le (succ : String → List String) :
    ∀ (fuel : Nat) (v : String) (st : DfsState), DfsLe st (dfsVisit succ fuel v st) := by
  intro fuel
  induction fuel with
  | zero => intro v st; exact DfsLe.rfl st
  | succ f ih =>
    intro v st
    by_cases hv : v ∈ st.discovered
    · simp only [dfsVisit, if_pos hv]
      exact DfsLe.rfl st
    · simp only [dfsVisit, if_neg hv]
      have h12 := foldl_dfsLe (fun s u => ih u s) (succ v) ⟨v :: st.discovered, st.order⟩
      obtain ⟨d1, o1, n1, e1⟩ := h12
      simp only at d1 o1 n1 e1
      refine ⟨?_, ?_, ?_, ?_⟩
      · intro x hx
        exact d1 x (List.mem_cons_of_mem v hx)
      · intro x hx
        exact List.mem_append_left _ (o1 x hx)
      · intro x hx
        rcases List.mem_append.mp hx with hx2 | hx2
        · rcases n1 x hx2 with hx3 | hx3
          · exact Or.inl hx3
          · exact Or.inr (fun hin => hx3 (List.mem_cons_of_mem v hin))
        · have : x = v := by simpa using hx2
          subst this
          exact Or.inr hv
      · intro x hx
        rcases e1 x hx with hx2 | hx2
        · exact Or.inl (List.mem_append_left _ hx2)
        · rcases List.mem_cons.mp hx2 with rfl | hx3
          · exact Or.inl (List.mem_append_right _ (by simp))
          · exact Or.inr hx3

theorem dfsVisit_ordsub (succ : String → List String) :
    ∀ (fuel : Nat) (v : String) (st : DfsState),
      (∀ x ∈ st.order, x ∈ st.discovered) →
      ∀ x ∈ (dfsVisit succ fuel v st).order, x ∈ (dfsVisit succ fuel v st).discovered := by
  intro fuel
  induction fuel with
  | zero => intro v st h; exact h
  | succ f ih =>
    intro v st h
    by_cases hv : v ∈ st.discovered
    · simp only [dfsVisit, if_pos hv]
      exact h
    · simp only [dfsVisit, if_neg hv]
      have hst1 : ∀ x ∈ (⟨v :: st.discovered, st.order⟩ : DfsState).order,
          x ∈ (⟨v :: st.discovered, st.order⟩ : DfsState).discovered := by
        intro x hx
        exact List.mem_cons_of_mem v (h x hx)
      have hst2 := foldl_pres (P := fun s => ∀ x ∈ s.order, x ∈ s.discovered)
        (fun s u hs => ih u s hs) (succ v) ⟨v :: st.discovered, st.order⟩ hst1
      intro x hx
      rcases List.mem_append.mp hx with hx2 | hx2
      · exact hst2 x hx2
      · have : x = v := by simpa using hx2
        subst this
        have hle := foldl_dfsLe (fun s u => dfsVisit_le succ f u s) (succ x)
          ⟨x :: st.discovered, st.order⟩
        exact hle.1 x (List.mem_cons_self x _)

theorem dfsVisit_nodup (succ : String → List String) :
    ∀ (fuel : Nat) (v : String) (st : DfsState),
      st.order.Nodup → (∀ x ∈ st.order, x ∈ st.discovered) →
      (dfsVisit succ fuel v st).order.Nodup := by
  intro fuel
  induction fuel with
  | zero => intro v st h _; exact h
  | succ f ih =>
    intro v st hnd hsub
    by_cases hv : v ∈ st.discovered
    · simp only [dfsVisit, if_pos hv]
      exact hnd
    · simp only [dfsVisit, if_neg hv]
      have hst2 := foldl_pres
        (P := fun s => s.order.Nodup ∧ ∀ x ∈ s.order, x ∈ s.discovered)
        (fun s u hs => ⟨ih u s hs.1 hs.2, dfsVisit_ordsub succ f u s hs.2⟩)
        (succ v) ⟨v :: st.discovered, st.order⟩
        ⟨hnd, fun x hx => List.mem_cons_of_mem v (hsub x hx)⟩
      have hle := foldl_dfsLe (fun s u => dfsVisit_le succ f u s) (succ v)
        ⟨v :: st.discovered, st.order⟩
      have hvnot : v ∉ ((succ v).foldl (fun s u => dfsVisit succ f u s)
          ⟨v :: st.discovered, st.order⟩).order := by
        intro hvin
        rcases hle.2.2.1 v hvin with hx | hx
        · exact hv (hsub v hx)
        · exact hx (List.mem_cons_self v _)
      simp only [List.nodup_append, List.nodup_singleton, List.disjoint_singleton]
      exact ⟨hst2.1, trivial, hvnot⟩

theorem dfsVisit_self_mem (succ : String → List String) (fuel : Nat) (v : String)
    (st : DfsState) (hfuel : 0 < fuel)
    (hst : v ∈ st.discovered → v ∈ st.order) :
    v ∈ (dfsVisit succ fuel v st).order := by
  cases fuel with
  | zero => omega
  | succ f =>
    by_cases hv : v ∈ st.discovered
    · simp only [dfsVisit, if_pos hv]
      exact hst hv
    · simp only [dfsVisit, if_neg hv]
      exact List.mem_append_right _ (by simp)

theorem dfsVisit_postorder (succ : String → List String) (rank : String → Nat)
    (hrk : ∀ a b, b ∈ succ a → rank b < rank a) :
    ∀ (fuel : Nat) (v : String) (st : DfsState),
      rank v < fuel →
      (∀ x ∈ st.discovered, x ∈ st.order ∨ rank v < rank x) →
      (∀ x ∈ st.order, ∀ u ∈ succ x, [u, x].Sublist st.order) →
      ∀ x ∈ (dfsVisit succ fuel v st).order, ∀ u ∈ succ x,
        [u, x].Sublist (dfsVisit succ fuel v st).order := by
  intro fuel
  induction fuel with
  | zero => intro v st h; omega
  | succ f ih =>
    intro v st hfv hdisc hinv
    by_cases hv : v ∈ st.discovered
    · simp only [dfsVisit, if_pos hv]
      exact hinv
    · simp only [dfsVisit, if_neg hv]
      have fold_spec :
          ∀ (l : List String) (s : DfsState),
            (∀ u ∈ l, rank u < rank v) →
            (∀ x ∈ s.discovered, x ∈ s.order ∨ rank v ≤ rank x) →
            (∀ x ∈ s.order, ∀ u ∈ succ x, [u, x].Sublist s.order) →
            (∀ x ∈ (l.foldl (fun s u => dfsVisit succ f u s) s).discovered,
              x ∈ (l.foldl (fun s u => dfsVisit succ f u s) s).order ∨ rank v ≤ rank x) ∧
            (∀ x ∈ (l.foldl (fun s u => dfsVisit succ f u s) s).order, ∀ u ∈ succ x,
              [u, x].Sublist (l.foldl (fun s u => dfsVisit succ f u s) s).order) ∧
            (∀ u ∈ l, u ∈ (l.foldl (fun s u => dfsVisit succ f u s) s).order) := by
        intro l
        induction l with
        | nil =>
          intro s _ hH hI
          exact ⟨hH, hI, by simp⟩
        | cons u t iht =>
          intro s hl hH hI
          have hu : rank u < rank v := hl u (List.mem_cons_self u t)
          have huf : rank u < f := by omega
          have hHu : ∀ x ∈ s.discovered, x ∈ s.order ∨ rank u < rank x := by
            intro x hx
            rcases hH x hx with hx2 | hx2
            · exact Or.inl hx2
            · exact Or.inr (by omega)
          have hI1 : ∀ x ∈ (dfsVisit succ f u s).order, ∀ w ∈ succ x,
              [w, x].Sublist (dfsVisit succ f u s).order :=
            ih u s huf hHu hI
          have hle := dfsVisit_le succ f u s
          have hH1 : ∀ x ∈ (dfsVisit succ f u s).discovered,
              x ∈ (dfsVisit succ f u s).order ∨ rank v ≤ rank x := by
            intro x hx
            rcases hle.2.2.2 x hx with hx2 | hx2
            · exact Or.inl hx2
            · rcases hH x hx2 with hx3 | hx3
              · exact Or.inl (hle.2.1 x hx3)
              · exact Or.inr hx3
          have humem : u ∈ (dfsVisit succ f u s).order := by
            refine dfsVisit_self_mem succ f u s (by omega) ?_
            intro hud
            rcases hH u hud with hx | hx
            · exact hx
            · omega
          have hrest := iht (dfsVisit succ f u s) (fun w hw => hl w (List.mem_cons_of_mem u hw))
            hH1 hI1
          refine ⟨hrest.1, hrest.2.1, ?_⟩
          intro w hw
          rcases List.mem_cons.mp hw with rfl | hw2
          · have hle2 := foldl_dfsLe (fun s2 u2 => dfsVisit_le succ f u2 s2) t
              (dfsVisit succ f w s)
            exact hle2.2.1 w humem
          · exact hrest.2.2 w hw2
      have hH0 : ∀ x ∈ (⟨v :: st.discovered, st.order⟩ : DfsState).discovered,
          x ∈ (⟨v :: st.discovered, st.order⟩ : DfsState).order ∨ rank v ≤ rank x := by
        intro x hx
        rcases List.mem_cons.mp hx with rfl | hx2
        · exact Or.inr (Nat.le_refl _)
        · rcases hdisc x hx2 with hx3 | hx3
          · exact Or.inl hx3
          · exact Or.inr (Nat.le_of_lt hx3)
      obtain ⟨hH2, hI2, hall⟩ := fold_spec (succ v) ⟨v :: st.discovered, st.order⟩
        (fun u hu => hrk v u hu) hH0 hinv
      intro x hx u hu
      rcases List.mem_append.mp hx with hx2 | hx2
      · exact (hI2 x hx2 u hu).trans (List.sublist_append_left _ _)
      · have : x = v := by simpa using hx2
        subst this
        have humem : u ∈ ((succ x).foldl (fun s u => dfsVisit succ f u s)
            ⟨x :: st.discovered, st.order⟩).order := hall u hu
        have hsub := (List.singleton_sublist.mpr humem).append (List.Sublist.refl [x])
        simpa using hsub

/-- Persisted per-branch record (`BranchState` in `git.rs`): dependency set
(`IndexSet`, modelled as a duplicate-free list preserving insertion order),
optional PR number, optional declared base, and the dirty flag. -/
structure BranchState where
  deps : List String
  pr : Option Nat
  base : Option String
  dirty : Bool
deriving Repr, DecidableEq

/-- The value `Repo::default_branch_name` returns: the constant `"main"` in the source. -/
def default_branch_name : String := "main"

/-- The git backend abstracted as an oracle: answers of the read-only
queries the reconciliation consults, plus the outcome of a rebase
invocation.  `rebaseRes old new name` models
`cmd_check(["rebase", "--onto", new, old, name])`: `none` is a spawn
failure (`status()` returned `Err`), `some exit` is a completed run whose
success flag is `exit`. -/
structure GitOracle where
  branchHead : String → String
  forkPointQ : String → String → Option String
  containsQ : String → String → Bool
  mergedQ : String → String → Bool
  rebaseRes : String → String → String → Option Bool

/-- A branch handle: its name and its loaded persisted state. -/
structure Branch where
  name : String
  state : BranchState
deriving Repr, DecidableEq

/-- Embedding of `Branch::deps`: the effective dependency list.  An empty persisted set
defaults to `[default_branch_name]`, except for the default branch itself,
whose effective list is empty. -/
def Branch.deps (b : Branch) : List String :=
  if b.state.deps.isEmpty then
    if b.name = default_branch_name then [] else [default_branch_name]
  else b.state.deps

/-- Embedding of `Branch::needs_update`: walk the persisted deps; a dep with a fork point
needs an update iff the dep's head moved past the fork point; a dep with no
fork point is always reported as needing an update. -/
def Branch.needs_update (o : GitOracle) (b : Branch) : Bool :=
  b.state.deps.any (fun dep =>
    match o.forkPointQ b.name dep with
    | some fp => o.branchHead dep != fp
    | none => true)

/-- The argument list of `Branch::rebase_onto`:
`git rebase --onto <new> <old> <branch>`. -/
def rebaseOntoCmd (old new name : String) : List String :=
  ["rebase", "--onto", new, old, name]

/-- Error message when more than one dependency remains after pruning. -/
def multiDepsMsg (name : String) : String :=
  "branch `" ++ name ++ "` has more than one dependency, which is currently unsupported."

/-- Error message when no fork point can be determined. -/
def forkPointMsg (name dep : String) : String :=
  "unable to determine fork point between `" ++ name ++ "` and `" ++ dep ++ "`!"

/-- Error message when spawning the git child process fails. -/
def gitSpawnMsg : String := "failed to execute git"

instance : DecidableEq (Except String Unit) := fun x y =>
  match x, y with
  | .ok (), .ok () => isTrue rfl
  | .error a, .error b =>
    if h : a = b then isTrue (by rw [h]) else
      isFalse (fun hc => h (by injection hc))
  | .ok _, .error _ => isFalse (fun h => Except.noConfusion h)
  | .error _, .ok _ => isFalse (fun h => Except.noConfusion h)

/-- Outcome of one `Branch::update` run: the returned `Result`, the final
in-memory state, the list of states persisted by `save_state` (in order),
and the rebase invocations issued to the backend (in order). -/
structure UpdateOut where
  result : Except String Unit
  state : BranchState
  saves : List BranchState
  rebases : List (List String)
deriving Repr, DecidableEq

/-- Drift check part of `Branch::update` (after the base-change path): with a
fork point, skip iff the dep head equals it, else rebase from the fork point;
with no fork point, skip iff the branch head equals the dep head or the dep
contains the branch or the branch is merged into the dep, else fail. -/
def updDrift (o : GitOracle) (name dep : String) (st1 : BranchState)
    (saves1 : List BranchState) : UpdateOut :=
  let depHead := o.branchHead dep
  match o.forkPointQ name dep with
  | some fp =>
    if depHead = fp then ⟨Except.ok (), st1, saves1, []⟩
    else
      match o.rebaseRes fp dep name with
      | none => ⟨Except.error gitSpawnMsg, st1, saves1, [rebaseOntoCmd fp dep name]⟩
      | some _ => ⟨Except.ok (), st1, saves1, [rebaseOntoCmd fp dep name]⟩
  | none =>
    if (o.branchHead name == depHead) || o.containsQ dep name || o.mergedQ dep name then
      ⟨Except.ok (), st1, saves1, []⟩
    else ⟨Except.error (forkPointMsg name dep), st1, saves1, []⟩

/-- Base-change path of `Branch::update`: rebase the branch from the old
declared base onto the new dependency; if the child process ran (whatever
its exit status — `rebase_onto` discards the flag returned by `cmd_check`),
set `base` to the new dependency, clear `dirty`, persist, and return. -/
def updBaseChange (o : GitOracle) (name dep previous : String) (st1 : BranchState)
    (saves1 : List BranchState) : UpdateOut :=
  match o.rebaseRes previous dep name with
  | none => ⟨Except.error gitSpawnMsg, st1, saves1, [rebaseOntoCmd previous dep name]⟩
  | some _ =>
    let st2 : BranchState := { st1 with base := some dep, dirty := false }
    ⟨Except.ok (), st2, saves1 ++ [st2], [rebaseOntoCmd previous dep name]⟩

/-- Embedding of `Branch::update` after the pruning stage: fail if more than one
dependency remains; otherwise take the sole dependency and run either the
base-change path (declared base set and different from the dependency) or
the drift check. -/
def updStage2 (o : GitOracle) (name : String) (deps1 : List String)
    (st1 : BranchState) (saves1 : List BranchState) : UpdateOut :=
  if deps1.length > 1 then ⟨Except.error (multiDepsMsg name), st1, saves1, []⟩
  else
    match deps1.head? with
    | none => ⟨Except.error "panic: deps.first() on empty deps", st1, saves1, []⟩
    | some dep =>
      match st1.base with
      | some previous =>
        if dep = previous then updDrift o name dep st1 saves1
        else updBaseChange o name dep previous st1 saves1
      | none => updDrift o name dep st1 saves1

/-- Shallow embedding of `Branch::update`.  Empty effective deps: successful
no-op.  More than one effective dep: drop the default branch name from both
the local list and the persisted set, persist, and continue with the rest. -/
def Branch.update (o : GitOracle) (b : Branch) : UpdateOut :=
  let deps0 := b.deps
  if deps0.isEmpty then ⟨Except.ok (), b.state, [], []⟩
  else if deps0.length > 1 then
    let st1 : BranchState := { b.state with deps := b.state.deps.erase default_branch_name }
    updStage2 o b.name (deps0.filter (fun d => d != default_branch_name)) st1 [st1]
  else updStage2 o b.name deps0 b.state []

theorem deps_of_nonempty {b : Branch} (h : b.state.deps ≠ []) : b.deps = b.state.deps := by
  simp [Branch.deps, h]

theorem updDrift_saves (o : GitOracle) (name dep : String) (st1 : BranchState)
    (saves1 : List BranchState) : (updDrift o name dep st1 saves1).saves = saves1 := by
  unfold updDrift
  cases hfp : o.forkPointQ name dep with
  | some fp =>
    by_cases h : o.branchHead dep = fp
    · simp [h]
    · cases hr : o.rebaseRes fp dep name <;> simp [h, hr]
  | none =>
    cases hcond : ((o.branchHead name == o.branchHead dep) || o.containsQ dep name
        || o.mergedQ dep name) <;> simp [hcond]

theorem updStage2_saves_extend (o : GitOracle) (name : String) (deps1 : List String)
    (st1 : BranchState) (saves1 : List BranchState) :
    ∃ extra, (updStage2 o name deps1 st1 saves1).saves = saves1 ++ extra := by
  by_cases h1 : deps1.length > 1
  · exact ⟨[], by simp [updStage2, h1]⟩
  cases hh : deps1.head? with
  | none => exact ⟨[], by simp [updStage2, h1, hh]⟩
  | some dep =>
    cases hb : st1.base with
    | none =>
      refine ⟨[], ?_⟩
      simp [updStage2, h1, hh, hb, updDrift_saves]
    | some previous =>
      by_cases hdp : dep = previous
      · refine ⟨[], ?_⟩
        simp [updStage2, h1, hh, hb, hdp, updDrift_saves]
      · simp only [updStage2, if_neg h1, hh, hb, if_neg hdp]
        unfold updBaseChange
        cases hr : o.rebaseRes previous dep name with
        | none => exact ⟨[], by simp⟩
        | some e => exact ⟨[{ st1 with base := some dep, dirty := false }], by simp⟩

theorem updDrift_ok_norebase {o : GitOracle} {name dep : String} {st1 : BranchState}
    {saves1 : List BranchState}
    (hok : (updDrift o name dep st1 saves1).result = Except.ok ())
    (hnr : (updDrift o name dep st1 saves1).rebases = []) :
    updDrift o name dep st1 saves1 = ⟨Except.ok (), st1, saves1, []⟩ := by
  unfold updDrift at hok hnr ⊢
  cases hfp : o.forkPointQ name dep with
  | some fp =>
    simp only [hfp] at hok hnr ⊢
    by_cases h : o.branchHead dep = fp
    · simp [h]
    · exfalso
      simp only [if_neg h] at hnr
      cases hr : o.rebaseRes fp dep name <;> simp [hr] at hnr
  | none =>
    simp only [hfp] at hok hnr ⊢
    cases hcond : ((o.branchHead name == o.branchHead dep) || o.containsQ dep name
        || o.mergedQ dep name) with
    | true => simp [hcond]
    | false => exfalso; simp [hcond] at hok

theorem updStage2_ok_norebase {o : GitOracle} {name : String} {deps1 : List String}
    {st1 : BranchState} {saves1 : List BranchState}
    (hok : (updStage2 o name deps1 st1 saves1).result = Except.ok ())
    (hnr : (updStage2 o name deps1 st1 saves1).rebases = []) :
    updStage2 o name deps1 st1 saves1 = ⟨Except.ok (), st1, saves1, []⟩ ∧
      ¬ deps1.length > 1 := by
  by_cases h1 : deps1.length > 1
  · exfalso; simp [updStage2, h1] at hok
  refine ⟨?_, h1⟩
  cases hh : deps1.head? with
  | none => exfalso; simp [updStage2, h1, hh] at hok
  | some dep =>
    simp only [updStage2, if_neg h1, hh] at hok hnr ⊢
    cases hb : st1.base with
    | none =>
      simp only [hb] at hok hnr ⊢
      exact updDrift_ok_norebase hok hnr
    | some previous =>
      simp only [hb] at hok hnr ⊢
      by_cases hdp : dep = previous
      · simp only [if_pos hdp] at hok hnr ⊢
        exact updDrift_ok_norebase hok hnr
      · exfalso
        simp only [if_neg hdp] at hnr
        unfold updBaseChange at hnr
        cases hr : o.rebaseRes previous dep name <;> simp [hr] at hnr

theorem deps_len_le {b : Branch} (h : b.state.deps.length ≤ 1) : b.deps.length ≤ 1 := by
  unfold Branch.deps
  by_cases he : b.state.deps.isEmpty
  · simp only [he, if_true]
    by_cases hn : b.name = default_branch_name <;> simp [hn]
  · simp only [he, if_false]
    exact h

theorem update_single_dep {o : GitOracle} {b : Branch}
    (hlen : b.state.deps.length ≤ 1)
    (hok : (Branch.update o b).result = Except.ok ())
    (hnr : (Branch.update o b).rebases = []) :
    Branch.update o b = ⟨Except.ok (), b.state, [], []⟩ := by
  by_cases hempty : b.deps.isEmpty
  · simp [Branch.update, hempty]
  · have hl2 : ¬ b.deps.length > 1 := by
      have := deps_len_le hlen
      omega
    simp only [Branch.update, hempty, if_false, hl2] at hok hnr ⊢
    exact (updStage2_ok_norebase hok hnr).1

/-- Claim C8: a branch with empty persisted deps reports effective deps
`[default_branch_name]` when it is not the default branch, and `[]` when it
is the default branch, in which case reconciliation is a successful no-op
(no save, no rebase, state unchanged). -/
theorem effective_deps_default_fallback (b : Branch) (hempty : b.state.deps = []) :
    (b.name ≠ default_branch_name → b.deps = [default_branch_name]) ∧
    (b.name = default_branch_name →
      b.deps = [] ∧
      ∀ o : GitOracle, Branch.update o b = ⟨Except.ok (), b.state, [], []⟩) := by
  constructor
  · intro hne
    simp [Branch.deps, hempty, hne]
  · intro heq
    have hd : b.deps = [] := by simp [Branch.deps, hempty, heq]
    exact ⟨hd, fun o => by simp [Branch.update, hd]⟩

theorem effective_deps_default_fallback_witness :
    ((Branch.mk "x" ⟨[], none, none, false⟩).state.deps = [] ∧
      (Branch.mk "x" ⟨[], none, none, false⟩).deps = [default_branch_name]) ∧
    ((Branch.mk "main" ⟨[], none, none, false⟩).state.deps = [] ∧
      (Branch.mk "main" ⟨[], none, none, false⟩).deps = []) :=
  ⟨⟨rfl, (effective_deps_default_fallback (Branch.mk "x" ⟨[], none, none, false⟩) rfl).1
      (by decide)⟩,
   ⟨rfl, ((effective_deps_default_fallback (Branch.mk "main" ⟨[], none, none, false⟩)
      rfl).2 rfl).1⟩⟩

/-- Claim C3: if the declared base is set and differs from the sole effective
dependency, `update` runs the onto-rebase from the old base to the new
dependency and, on success, sets the base to the new dependency, clears
`dirty`, persists exactly that state, and terminates without running the
drift check (the output is fully determined, independent of the fork-point
and head queries). -/
theorem update_base_change (o : GitOracle) (b : Branch) (dep previous : String)
    (hdeps : b.deps = [dep])
    (hbase : b.state.base = some previous)
    (hne : dep ≠ previous)
    (hreb : o.rebaseRes previous dep b.name = some true) :
    Branch.update o b =
      ⟨Except.ok (), { b.state with base := some dep, dirty := false },
        [{ b.state with base := some dep, dirty := false }],
        [rebaseOntoCmd previous dep b.name]⟩ := by
  simp [Branch.update, hdeps, updStage2, updBaseChange, hbase, hne, hreb]

def oW3 : GitOracle :=
  ⟨fun _ => "h", fun _ _ => none, fun _ _ => false, fun _ _ => false, fun _ _ _ => some true⟩

theorem update_base_change_witness :
    (Branch.mk "f" ⟨["d"], none, some "m", false⟩).deps = ["d"] ∧
    Branch.update oW3 (Branch.mk "f" ⟨["d"], none, some "m", false⟩) =
      ⟨Except.ok (), ⟨["d"], none, some "d", false⟩, [⟨["d"], none, some "d", false⟩],
        [rebaseOntoCmd "m" "d" "f"]⟩ :=
  ⟨rfl, update_base_change oW3 (Branch.mk "f" ⟨["d"], none, some "m", false⟩) "d" "m"
    rfl rfl (by decide) rfl⟩

theorem update_reduces_to_drift {o : GitOracle} {b : Branch} {dep : String}
    (hdeps : b.state.deps = [dep])
    (hnb : ∀ previous, b.state.base = some previous → previous = dep) :
    Branch.update o b = updDrift o b.name dep b.state [] := by
  have hd : b.deps = [dep] := by
    rw [deps_of_nonempty (by simp [hdeps])]
    exact hdeps
  cases hb : b.state.base with
  | none => simp [Branch.update, hd, updStage2, hb]
  | some p =>
    have hp := hnb p hb
    subst hp
    simp [Branch.update, hd, updStage2, hb]

/-- Claim C4: with a sole dependency `dep` and a determined fork point `fp`,
the needs-update decision is true iff `dep`'s head differs from `fp`: the
`needs_update` query answers exactly that, and `update` is a successful
no-op when the heads agree while it issues the fork-point rebase (and
nothing else) when they differ. -/
theorem needs_update_fork_point (o : GitOracle) (b : Branch) (dep fp : String)
    (hdeps : b.state.deps = [dep])
    (hfp : o.forkPointQ b.name dep = some fp)
    (hnb : ∀ previous, b.state.base = some previous → previous = dep) :
    (Branch.needs_update o b = true ↔ o.branchHead dep ≠ fp) ∧
    (o.branchHead dep = fp → Branch.update o b = ⟨Except.ok (), b.state, [], []⟩) ∧
    (o.branchHead dep ≠ fp →
      (Branch.update o b).rebases = [rebaseOntoCmd fp dep b.name] ∧
      (Branch.update o b).state = b.state ∧ (Branch.update o b).saves = []) := by
  have hupd := update_reduces_to_drift (o := o) hdeps hnb
  refine ⟨?_, ?_, ?_⟩
  · simp [Branch.needs_update, hdeps, hfp, bne_iff_ne]
  · intro he
    rw [hupd]
    simp [updDrift, hfp, he]
  · intro hne
    rw [hupd]
    cases hr : o.rebaseRes fp dep b.name <;> simp [updDrift, hfp, hne, hr]

def oW4 : GitOracle :=
  ⟨fun _ => "p", fun _ _ => some "p", fun _ _ => false, fun _ _ => false, fun _ _ _ => none⟩

theorem needs_update_fork_point_witness :
    (Branch.mk "f" ⟨["d"], none, some "d", false⟩).state.deps = ["d"] ∧
    oW4.forkPointQ "f" "d" = some "p" ∧
    ((Branch.needs_update oW4 (Branch.mk "f" ⟨["d"], none, some "d", false⟩) = true ↔
        oW4.branchHead "d" ≠ "p") ∧
      (oW4.branchHead "d" = "p" →
        Branch.update oW4 (Branch.mk "f" ⟨["d"], none, some "d", false⟩) =
          ⟨Except.ok (), ⟨["d"], none, some "d", false⟩, [], []⟩) ∧
      (oW4.branchHead "d" ≠ "p" →
        (Branch.update oW4 (Branch.mk "f" ⟨["d"], none, some "d", false⟩)).rebases =
          [rebaseOntoCmd "p" "d" "f"] ∧
        (Branch.update oW4 (Branch.mk "f" ⟨["d"], none, some "d", false⟩)).state =
          ⟨["d"], none, some "d", false⟩ ∧
        (Branch.update oW4 (Branch.mk "f" ⟨["d"], none, some "d", false⟩)).saves = [])) :=
  ⟨rfl, rfl, needs_update_fork_point oW4 (Branch.mk "f" ⟨["d"], none, some "d", false⟩)
    "d" "p" rfl rfl (fun _ h => (Option.some.inj h).symm)⟩

/-- Claim C5: with a sole dependency `dep` and no determinable fork point,
`update` is a successful no-op (no save, no rebase) when the branch head
equals the dep head, or the dep contains the branch, or the branch is merged
into the dep; otherwise it fails with the unresolvable-fork-point error
naming both branches, and no rebase is attempted. -/
theorem update_no_fork_point (o : GitOracle) (b : Branch) (dep : String)
    (hdeps : b.state.deps = [dep])
    (hfp : o.forkPointQ b.name dep = none)
    (hnb : ∀ previous, b.state.base = some previous → previous = dep) :
    ((o.branchHead b.name = o.branchHead dep ∨ o.containsQ dep b.name = true ∨
        o.mergedQ dep b.name = true) →
      Branch.update o b = ⟨Except.ok (), b.state, [], []⟩) ∧
    (¬ (o.branchHead b.name = o.branchHead dep ∨ o.containsQ dep b.name = true ∨
        o.mergedQ dep b.name = true) →
      Branch.update o b = ⟨Except.error (forkPointMsg b.name dep), b.state, [], []⟩) := by
  have hupd := update_reduces_to_drift (o := o) hdeps hnb
  have hcond : ((o.branchHead b.name == o.branchHead dep) || o.containsQ dep b.name
      || o.mergedQ dep b.name) = true ↔
      (o.branchHead b.name = o.branchHead dep ∨ o.containsQ dep b.name = true ∨
        o.mergedQ dep b.name = true) := by
    simp [Bool.or_eq_true, beq_iff_eq, or_assoc]
  constructor
  · intro h
    rw [hupd]
    simp [updDrift, hfp, hcond.mpr h]
  · intro h
    have hfalse : ((o.branchHead b.name == o.branchHead dep) || o.containsQ dep b.name
        || o.mergedQ dep b.name) = false := by
      rw [← Bool.not_eq_true]
      intro hx
      exact h (hcond.mp hx)
    rw [hupd]
    simp [updDrift, hfp, hfalse]

def oW5 : GitOracle :=
  ⟨fun _ => "h", fun _ _ => none, fun _ _ => false, fun _ _ => false, fun _ _ _ => none⟩

theorem update_no_fork_point_witness :
    (Branch.mk "f" ⟨["d"], none, some "d", false⟩).state.deps = ["d"] ∧
    oW5.forkPointQ "f" "d" = none ∧
    oW5.branchHead "f" = oW5.branchHead "d" ∧
    Branch.update oW5 (Branch.mk "f" ⟨["d"], none, some "d", false⟩) =
      ⟨Except.ok (), ⟨["d"], none, some "d", false⟩, [], []⟩ :=
  ⟨rfl, rfl, rfl,
    (update_no_fork_point oW5 (Branch.mk "f" ⟨["d"], none, some "d", false⟩) "d"
      rfl rfl (fun _ h => (Option.some.inj h).symm)).1 (Or.inl rfl)⟩

/-- Claim C6: when reconciliation starts with more than one effective
dependency, the default branch name is removed from the persisted set and
that pruned state is the first state persisted; if more than one dependency
still remains after the pruning, `update` fails with the
multiple-dependencies error and issues no rebase. -/
theorem update_prunes_default (o : GitOracle) (b : Branch)
    (hnd : b.state.deps.Nodup) (hlen : b.state.deps.length > 1) :
    ((Branch.update o b).saves.head? =
      some { b.state with deps := b.state.deps.erase default_branch_name }) ∧
    ((b.state.deps.erase default_branch_name).length > 1 →
      Branch.update o b =
        ⟨Except.error (multiDepsMsg b.name),
          { b.state with deps := b.state.deps.erase default_branch_name },
          [{ b.state with deps := b.state.deps.erase default_branch_name }], []⟩) := by
  have hne : b.state.deps ≠ [] := by
    intro h
    rw [h] at hlen
    simp at hlen
  have hd : b.deps = b.state.deps := deps_of_nonempty hne
  have hdl : ¬ b.deps.isEmpty := by
    simp [hd, List.isEmpty_iff, hne]
  have hdlen : b.deps.length > 1 := by rw [hd]; exact hlen
  have hef : b.state.deps.erase default_branch_name =
      b.state.deps.filter (fun d => d != default_branch_name) :=
    List.Nodup.erase_eq_filter hnd default_branch_name
  have hupd : Branch.update o b =
      updStage2 o b.name (b.state.deps.filter (fun d => d != default_branch_name))
        { b.state with deps := b.state.deps.erase default_branch_name }
        [{ b.state with deps := b.state.deps.erase default_branch_name }] := by
    simp [Branch.update, hd, List.isEmpty_iff, hne, hlen]
  constructor
  · rw [hupd]
    obtain ⟨extra, hx⟩ := updStage2_saves_extend o b.name
      (b.state.deps.filter (fun d => d != default_branch_name))
      { b.state with deps := b.state.deps.erase default_branch_name }
      [{ b.state with deps := b.state.deps.erase default_branch_name }]
    rw [hx]
    simp
  · intro hstill
    rw [hupd]
    have hflen : (b.state.deps.filter (fun d => d != default_branch_name)).length > 1 := by
      rw [← hef]
      exact hstill
    simp [updStage2, hflen]

def oW6 : GitOracle :=
  ⟨fun _ => "h", fun _ _ => none, fun _ _ => false, fun _ _ => false, fun _ _ _ => none⟩

theorem update_prunes_default_witness :
    (Branch.mk "f" ⟨["main", "x", "y"], none, none, false⟩).state.deps.Nodup ∧
    (Branch.mk "f" ⟨["main", "x", "y"], none, none, false⟩).state.deps.length > 1 ∧
    (["main", "x", "y"].erase default_branch_name = ["x", "y"]) ∧
    Branch.update oW6 (Branch.mk "f" ⟨["main", "x", "y"], none, none, false⟩) =
      ⟨Except.error (multiDepsMsg "f"), ⟨["x", "y"], none, none, false⟩,
        [⟨["x", "y"], none, none, false⟩], []⟩ :=
  ⟨by decide, by decide, by decide,
    (update_prunes_default oW6 (Branch.mk "f" ⟨["main", "x", "y"], none, none, false⟩)
      (by decide) (by decide)).2 (by decide)⟩

def oW2 : GitOracle :=
  ⟨fun n => if n = "dev" then "h2" else "h1", fun _ _ => some "f0",
   fun _ _ => false, fun _ _ => false, fun _ _ _ => some false⟩

/-- Claim C2 (code bug): `Repo::cmd_check` returns `Ok(status.success())`,
and `Branch::rebase_onto` discards that boolean with `?`, so a rebase that
runs and exits non-zero (`rebaseRes = some false`) is reported as success:
here `update` needs a rebase (dep head `"h2"` differs from fork point
`"f0"`), the rebase fails, and `update` still returns `Ok(())`. -/
theorem update_swallows_failed_rebase :
    Branch.update oW2 (Branch.mk "feat" ⟨["dev"], none, some "dev", false⟩) =
      ⟨Except.ok (), ⟨["dev"], none, some "dev", false⟩, [],
        [rebaseOntoCmd "f0" "dev" "feat"]⟩ := by
  decide

/-- Claim C9: if an `update` run succeeds without issuing any rebase (no
update was needed) and a second run on the resulting state also succeeds
without issuing any rebase, then the second run persists nothing and leaves
the state unchanged. -/
theorem update_idempotent (o : GitOracle) (b : Branch)
    (hnd : b.state.deps.Nodup)
    (h1ok : (Branch.update o b).result = Except.ok ())
    (h1nr : (Branch.update o b).rebases = [])
    (h2ok : (Branch.update o (Branch.mk b.name (Branch.update o b).state)).result =
      Except.ok ())
    (h2nr : (Branch.update o (Branch.mk b.name (Branch.update o b).state)).rebases = []) :
    (Branch.update o (Branch.mk b.name (Branch.update o b).state)).saves = [] ∧
    (Branch.update o (Branch.mk b.name (Branch.update o b).state)).state =
      (Branch.update o b).state := by
  have hlen1 : (Branch.update o b).state.deps.length ≤ 1 := by
    by_cases hempty : b.deps.isEmpty
    · have hupd : Branch.update o b = ⟨Except.ok (), b.state, [], []⟩ := by
        simp [Branch.update, hempty]
      have hnil : b.state.deps = [] := by
        by_contra hne2
        rw [deps_of_nonempty hne2] at hempty
        rw [List.isEmpty_iff] at hempty
        exact hne2 hempty
      rw [hupd]
      simp [hnil]
    · by_cases hl : b.deps.length > 1
      · have hne : b.state.deps ≠ [] := by
          intro h
          have : b.deps.length ≤ 1 := deps_len_le (by simp [h])
          omega
        have hd : b.deps = b.state.deps := deps_of_nonempty hne
        have hll : b.state.deps.length > 1 := by rwa [hd] at hl
        have hupd : Branch.update o b =
            updStage2 o b.name (b.state.deps.filter (fun d => d != default_branch_name))
              { b.state with deps := b.state.deps.erase default_branch_name }
              [{ b.state with deps := b.state.deps.erase default_branch_name }] := by
          simp [Branch.update, hd, List.isEmpty_iff, hne, hll]
        rw [hupd] at h1ok h1nr
        obtain ⟨heq, hflen⟩ := updStage2_ok_norebase h1ok h1nr
        rw [hupd, heq]
        have hef : b.state.deps.erase default_branch_name =
            b.state.deps.filter (fun d => d != default_branch_name) :=
          List.Nodup.erase_eq_filter hnd default_branch_name
        simp only
        rw [hef]
        omega
      · have hupd : Branch.update o b = updStage2 o b.name b.deps b.state [] := by
          simp [Branch.update, hempty, hl]
        rw [hupd] at h1ok h1nr
        obtain ⟨heq, _⟩ := updStage2_ok_norebase h1ok h1nr
        rw [hupd, heq]
        by_cases hne : b.state.deps = []
        · simp [hne]
        · rw [← deps_of_nonempty hne]
          omega
  have h2 := update_single_dep (b := Branch.mk b.name (Branch.update o b).state)
    hlen1 h2ok h2nr
  rw [h2]
  exact ⟨rfl, rfl⟩

def oW9 : GitOracle :=
  ⟨fun _ => "p", fun _ _ => some "p", fun _ _ => false, fun _ _ => false, fun _ _ _ => none⟩

theorem update_idempotent_witness :
    (Branch.mk "f" ⟨["d"], none, some "d", false⟩).state.deps.Nodup ∧
    (Branch.update oW9 (Branch.mk "f" ⟨["d"], none, some "d", false⟩)).result =
      Except.ok () ∧
    (Branch.update oW9 (Branch.mk "f" ⟨["d"], none, some "d", false⟩)).rebases = [] ∧
    (Branch.update oW9 (Branch.mk "f"
      (Branch.update oW9 (Branch.mk "f" ⟨["d"], none, some "d", false⟩)).state)).saves = [] ∧
    (Branch.update oW9 (Branch.mk "f"
      (Branch.update oW9 (Branch.mk "f" ⟨["d"], none, some "d", false⟩)).state)).state =
      (Branch.update oW9 (Branch.mk "f" ⟨["d"], none, some "d", false⟩)).state := by
  refine ⟨by decide, by decide, by decide, ?_⟩
  have h := update_idempotent oW9 (Branch.mk "f" ⟨["d"], none, some "d", false⟩)
    (by decide) (by decide) (by decide) (by decide) (by decide)
  exact h

/-- Claim C1: starting from a well-formed acyclic graph, a `try_add_dep` call
that succeeds yields an acyclic graph; a call on known endpoints whose edge
would create a cycle fails with the cycle error naming both endpoints (and,
since the error is returned before any mutation, the graph is unchanged:
`applyDeps` keeps the old graph on a failing call); and after any sequence
of calls the graph is still acyclic. -/
theorem try_add_dep_acyclic (g : Graph) (b d : String)
    (hwf : GraphWf g) (hacyc : ¬ HasCycle g) :
    (∀ g2, try_add_dep g b d = .ok g2 → ¬ HasCycle g2) ∧
    (b ∈ g.nodes → d ∈ g.nodes → HasCycle (addDepEdge g b d) →
      try_add_dep g b d = .error (cycleMsg b d)) ∧
    (∀ calls, ¬ HasCycle (applyDeps g calls)) :=
  ⟨fun _ h => (try_add_dep_ok_inv hwf hacyc h).2,
   fun hb hd hcyc => try_add_dep_rejects hwf hacyc hb hd hcyc,
   fun calls => (applyDeps_inv hwf hacyc calls).2⟩

def gW1 : Graph := ⟨["a", "b", "c"], []⟩

theorem gW1_wf : GraphWf gW1 := by
  intro e he
  simp [gW1] at he

theorem gW1_acyclic : ¬ HasCycle gW1 := by
  rintro ⟨p, q, he, _⟩
  simp [gW1, Edge] at he

theorem try_add_dep_acyclic_witness :
    GraphWf gW1 ∧ ¬ HasCycle gW1 ∧
    ((∀ g2, try_add_dep gW1 "a" "b" = .ok g2 → ¬ HasCycle g2) ∧
      ("a" ∈ gW1.nodes → "b" ∈ gW1.nodes → HasCycle (addDepEdge gW1 "a" "b") →
        try_add_dep gW1 "a" "b" = .error (cycleMsg "a" "b")) ∧
      (∀ calls, ¬ HasCycle (applyDeps gW1 calls))) :=
  ⟨gW1_wf, gW1_acyclic, try_add_dep_acyclic gW1 "a" "b" gW1_wf gW1_acyclic⟩

theorem effDeps_eq_branch_deps (b : Branch) : effDeps b.name b.state.deps = b.deps := rfl

theorem chainOk_mono {g g2 : Graph} (hsub : ∀ a b, Edge g a b → Edge g2 a b) :
    ∀ (l : List String) (a b : String), chainOk g a l b → chainOk g2 a l b := by
  intro l
  induction l with
  | nil => intro a b h; exact h
  | cons c t ih => intro a b h; exact ⟨hsub a c h.1, ih c b h.2⟩

theorem hasCycle_mono {g g2 : Graph} (hsub : ∀ a b, Edge g a b → Edge g2 a b)
    (h : HasCycle g) : HasCycle g2 := by
  obtain ⟨p, q, he, l, hc⟩ := h
  exact ⟨p, q, hsub p q he, l, chainOk_mono hsub l q p hc⟩

theorem mem_foldr_edges_iff :
    ∀ (bs : List (String × List String)) (N : List String) (e : String × String),
      e ∈ bs.foldr
        (fun p acc => (p.2.filter (fun d => d ∈ N)).map (fun d => (p.1, d)) ++ acc) [] ↔
      ∃ p ∈ bs, e.1 = p.1 ∧ e.2 ∈ p.2 ∧ e.2 ∈ N := by
  intro bs
  induction bs with
  | nil => intro N e; simp
  | cons p ps ih =>
    intro N e
    simp only [List.foldr_cons, List.mem_append, List.mem_map, List.mem_filter,
      decide_eq_true_eq, ih, List.mem_cons]
    constructor
    · rintro (⟨dd, ⟨hd1, hd2⟩, rfl⟩ | ⟨p2, hp2, h1, h2, h3⟩)
      · exact ⟨p, Or.inl rfl, rfl, hd1, hd2⟩
      · exact ⟨p2, Or.inr hp2, h1, h2, h3⟩
    · rintro ⟨p2, hp2 | hp2, h1, h2, h3⟩
      · subst hp2
        refine Or.inl ⟨e.2, ⟨h2, h3⟩, ?_⟩
        cases e
        simp only at h1
        subst h1
        rfl
      · exact Or.inr ⟨p2, hp2, h1, h2, h3⟩

theorem map_effDeps_nodes (branches : List (String × List String)) :
    (branches.map (fun p => (p.1, effDeps p.1 p.2))).map Prod.fst =
      branches.map Prod.fst := by
  simp [List.map_map, Function.comp]

theorem persisted_cycle_effective (branches : List (String × List String))
    (h : HasCycle (buildGraph branches)) :
    HasCycle (buildGraph (branches.map (fun p => (p.1, effDeps p.1 p.2)))) := by
  refine hasCycle_mono ?_ h
  intro a b he
  simp only [Edge, buildGraph] at he ⊢
  rw [mem_foldr_edges_iff] at he
  rw [mem_foldr_edges_iff, map_effDeps_nodes]
  obtain ⟨p, hp, h1, h2, h3⟩ := he
  refine ⟨(p.1, effDeps p.1 p.2), List.mem_map.mpr ⟨p, hp, rfl⟩, h1, ?_, h3⟩
  have hne : ¬ p.2.isEmpty := by
    rw [List.isEmpty_iff]
    intro hx
    rw [hx] at h2
    simp at h2
  simp only [effDeps, hne, if_false]
  exact h2

/-- Claim C10 (amended): `GraphRepo::new` (modelled by `graph_repo_new`,
with `none` standing for the `Acyclic::try_from_graph(...).unwrap()` panic)
panics exactly when the *effective* dependency graph — built from
`Branch::deps()`, i.e. with the implicit default-branch fallback for
empty-dep branches, and skipping unknown-branch dependencies — is cyclic;
in particular cyclic persisted records panic, and construction succeeds on
every input whose effective graph is acyclic. -/
theorem graph_repo_new_cycle (branches : List (String × List String)) :
    (graph_repo_new branches = none ↔
      HasCycle (buildGraph (branches.map (fun p => (p.1, effDeps p.1 p.2))))) ∧
    (HasCycle (buildGraph branches) → graph_repo_new branches = none) ∧
    (¬ HasCycle (buildGraph (branches.map (fun p => (p.1, effDeps p.1 p.2)))) →
      graph_repo_new branches = some
        (buildGraph (branches.map (fun p => (p.1, effDeps p.1 p.2))))) := by
  have hwf := buildGraph_wf (branches.map (fun p => (p.1, effDeps p.1 p.2)))
  have hiff : graph_repo_new branches = none ↔
      HasCycle (buildGraph (branches.map (fun p => (p.1, effDeps p.1 p.2)))) := by
    constructor
    · intro h
      by_cases hc : hasCycleB (buildGraph (branches.map (fun p => (p.1, effDeps p.1 p.2))))
          = true
      · exact (hasCycleB_iff hwf).mp hc
      · exfalso
        simp [graph_repo_new, hc] at h
    · intro h
      have hc := (hasCycleB_iff hwf).mpr h
      simp [graph_repo_new, hc]
  refine ⟨hiff, ?_, ?_⟩
  · intro h
    exact hiff.mpr (persisted_cycle_effective branches h)
  · intro h
    have hc : hasCycleB (buildGraph (branches.map (fun p => (p.1, effDeps p.1 p.2))))
        = false := by
      rw [← Bool.not_eq_true]
      intro hx
      exact h ((hasCycleB_iff hwf).mp hx)
    simp [graph_repo_new, hc]

/-- Claim C10 counterexample: the persisted records `main depends on x`,
`x has no deps` form an acyclic graph, yet construction panics:
`GraphRepo::new` takes edges from `Branch::deps()`, so the empty persisted
deps of `x` contribute the implicit edge `x → main`, closing a cycle with
the persisted edge `main → x`. -/
theorem graph_repo_new_acyclic_records_panic :
    graph_repo_new [("main", ["x"]), ("x", [])] = none ∧
    ¬ HasCycle (buildGraph [("main", ["x"]), ("x", [])]) := by
  constructor
  · decide
  · refine no_cycle_of_rank (fun s => if s = "main" then 1 else 0) ?_
    intro p q he
    have : p = "main" ∧ q = "x" := by
      simp only [Edge, buildGraph] at he
      rw [mem_foldr_edges_iff] at he
      obtain ⟨p2, hp2, h1, h2, h3⟩ := he
      simp only [List.mem_cons, List.mem_singleton, List.not_mem_nil, or_false] at hp2
      rcases hp2 with rfl | rfl
      · simp only at h1
        simp at h2
        exact ⟨h1, h2⟩
      · simp at h2
    obtain ⟨rfl, rfl⟩ := this
    decide

/-- Claim C7: the recursive update visits branches in post-order over the
dependency graph: the emission order of the `DfsPostOrder` traversal driving
`handle_update --recursive` contains no branch twice, and every dependency
of an emitted branch is emitted strictly before it (the two-element sublist
`[u, x]` witnesses that `u` precedes `x` in the order).  The hypothesis is a
topological ranking of the dependency graph, which exists because the graph
is the `Acyclic`-enforced `GraphRepo` graph. -/
theorem update_recursive_postorder (succ : String → List String) (rank : String → Nat)
    (fuel : Nat) (root : String)
    (hrk : ∀ a b, b ∈ succ a → rank b < rank a)
    (hfuel : rank root < fuel) :
    (updateRecursiveOrder succ fuel root).Nodup ∧
    ∀ x ∈ updateRecursiveOrder succ fuel root, ∀ u ∈ succ x,
      [u, x].Sublist (updateRecursiveOrder succ fuel root) := by
  constructor
  · exact dfsVisit_nodup succ fuel root ⟨[], []⟩ (by simp) (by simp)
  · exact dfsVisit_postorder succ rank hrk fuel root ⟨[], []⟩ hfuel (by simp) (by simp)

/-- Dependency successors of the chain `c depends on b depends on a`. -/
def succW : String → List String :=
  fun s => if s = "c" then ["b"] else if s = "b" then ["a"] else []

def rankW : String → Nat := fun s => if s = "c" then 2 else if s = "b" then 1 else 0

theorem update_recursive_postorder_witness :
    (∀ a b, b ∈ succW a → rankW b < rankW a) ∧ rankW "c" < 3 ∧
    ((updateRecursiveOrder succW 3 "c").Nodup ∧
      ∀ x ∈ updateRecursiveOrder succW 3 "c", ∀ u ∈ succW x,
        [u, x].Sublist (updateRecursiveOrder succW 3 "c")) ∧
    updateRecursiveOrder succW 3 "c" = ["a", "b", "c"] := by
  have h1 : ∀ a b, b ∈ succW a → rankW b < rankW a := by
    intro a b hb
    unfold succW at hb
    split_ifs at hb with hc hb2
    · simp at hb
      subst hb
      subst hc
      decide
    · simp at hb
      subst hb
      subst hb2
      decide
    · simp at hb
  exact ⟨h1, by decide, update_recursive_postorder succW rankW 3 "c" h1 (by decide),
    by decide⟩

end Giddy
